import Mathlib

/-!
Shallow embedding of the replicated chunked object store implemented in
`src/dfs_web_interface.py` (classes `Node` and `DFS`), together with proofs
about its upload, download, failure and recovery operations.

Modelling conventions:
* Python `bytes` values are lists of byte values (`List Nat`).
* A chunk identifier `"{file_hash}_chunk_{i}"` is modelled as the pair
  `(file_hash, i)`.  The hex digest produced by `hashlib.sha256(...).hexdigest()`
  never contains the substring `"_chunk_"`, so the formatted string is in
  bijection with the pair and `int(cid.split('_chunk_')[1])` recovers the
  second component, which is what `download_file` sorts by.
* Python dicts are association lists that keep insertion order; updating an
  existing key keeps its position, a fresh key is appended at the end.  This
  matters because `recover_data` iterates `self.metadata.items()` in insertion
  order.
* `hashlib.sha256(filename.encode()).hexdigest()` is a fixed deterministic
  function of the filename; it is modelled as an arbitrary parameter
  `H : String → String` passed to `upload_file`, so every theorem holds for
  the real digest function in particular.  Concrete scenarios instantiate
  `H := id`.
* Python truthiness is modelled explicitly: `if chunk_data:` is false both for
  `None` and for the empty byte string.
* `recover_data` iterates over the list `self.metadata[file_hash]` while the
  loop body appends to that same list, so the iteration can run forever.  It
  is therefore modelled with an explicit fuel argument; the returned flag
  records whether the Python loop finished (`true`) or was cut off by fuel
  (`false`, in which case the Python original would still be running).  The
  function also returns the list of metadata events (replica-record appends
  and stale-record removals) in execution order.
-/

namespace DFSim

/-- A byte sequence (Python `bytes`). -/
abbrev Bytes := List Nat

/-- A chunk identifier: the pair (file hash, sequence number) standing for the
string `"{file_hash}_chunk_{i}"`. -/
abbrev ChunkId := String × Nat

/-- Python `d.get(k)` on a dict modelled as an association list. -/
def getA {κ β : Type} [DecidableEq κ] (k : κ) : List (κ × β) → Option β
  | [] => none
  | p :: t => if p.1 = k then some p.2 else getA k t

/-- Python `d[k] = v` on a dict: an existing key keeps its position, a fresh
key is appended at the end. -/
def setA {κ β : Type} [DecidableEq κ] (k : κ) (v : β) : List (κ × β) → List (κ × β)
  | [] => [(k, v)]
  | p :: t => if p.1 = k then (p.1, v) :: t else p :: setA k v t

/-- Storage node (class `Node`): identity, capacity, chunk store, active flag. -/
structure Node where
  node_id : Nat
  capacity : Nat
  storage : List (ChunkId × Bytes)
  active : Bool
deriving DecidableEq, Repr

/-- `Node.__init__(node_id, capacity=100)` with the default capacity. -/
def Node.init (i : Nat) : Node :=
  { node_id := i, capacity := 100, storage := [], active := true }

/-- `Node.store_chunk`: stores iff `len(self.storage) < self.capacity and
self.active`; returns the flag together with the (possibly updated) node. -/
def Node.store_chunk (n : Node) (cid : ChunkId) (data : Bytes) : Bool × Node :=
  if n.storage.length < n.capacity ∧ n.active = true then
    (true, { n with storage := setA cid data n.storage })
  else
    (false, n)

/-- `Node.retrieve_chunk`: `self.storage.get(chunk_id) if self.active else None`. -/
def Node.retrieve_chunk (n : Node) (cid : ChunkId) : Option Bytes :=
  if n.active = true then getA cid n.storage else none

/-- `Node.fail`: sets `active = False`. -/
def Node.fail (n : Node) : Node :=
  { n with active := false }

/-- Placeholder node used with `List.getD`; every lookup in the development is
at an index that is in range, so it is never actually selected. -/
def dummyNode : Node := Node.init 0

/-- Replica records of one file: the list `self.metadata[file_hash]` of
`(node_id, chunk_id)` pairs. -/
abbrev Records := List (Nat × ChunkId)

/-- The metadata index `self.metadata`, an insertion-ordered dict from file
hash to replica records. -/
abbrev Md := List (String × Records)

/-- Appending `(node_id, chunk_id)` to `self.metadata[file_hash]`: the
`defaultdict` creates the key on first access, at the end of the dict. -/
def mdAppend (fh : String) (r : Nat × ChunkId) : Md → Md
  | [] => [(fh, [r])]
  | p :: t => if p.1 = fh then (p.1, p.2 ++ [r]) :: t else p :: mdAppend fh r t

/-- The records of `file_hash`, defaulting to the empty list. -/
def mdGetD (fh : String) (md : Md) : Records :=
  (getA fh md).getD []

/-- Dict update `self.metadata[file_hash] = recs` (the key keeps its position). -/
def mdSet (fh : String) (recs : Records) (md : Md) : Md :=
  setA fh recs md

/-- The distributed file system state (class `DFS`). -/
structure DFS where
  nodes : List Node
  replication_factor : Nat
  metadata : Md
  chunk_size : Nat
deriving DecidableEq, Repr

/-- `DFS.__init__(num_nodes, replication_factor)`: fresh nodes `0..num_nodes-1`,
empty metadata, chunk size 1024. -/
def DFS.init (num_nodes replication_factor : Nat) : DFS :=
  { nodes := (List.range num_nodes).map Node.init
    replication_factor := replication_factor
    metadata := []
    chunk_size := 1024 }

/-- Structural worker for `splitChunks`; the first argument is fuel that is
always at least the length of the remaining content. -/
def splitChunksGo (cs : Nat) : Nat → Bytes → List Bytes
  | 0, _ => []
  | _ + 1, [] => []
  | fuel + 1, b :: t => ((b :: t).take cs) :: splitChunksGo cs fuel ((b :: t).drop cs)

/-- The chunk list `[content[i:i+chunk_size] for i in range(0, len(content), chunk_size)]`.
A step of `0` would raise `ValueError` in Python; the engine only ever uses
step 1024, so that case is mapped to the empty list. -/
def splitChunks (cs : Nat) (content : Bytes) : List Bytes :=
  match cs with
  | 0 => []
  | k + 1 => splitChunksGo (k + 1) content.length content

/-- Insertion of an element into a sorted list, before any later element that
does not compare strictly below it. -/
def insertLe {α : Type} (le : α → α → Bool) (a : α) : List α → List α
  | [] => [a]
  | b :: t => if le a b then a :: b :: t else b :: insertLe le a t

/-- Insertion sort.  It is stable (an element is inserted in front of equal
elements that occur later in the input), so for the comparisons used below it
computes exactly what Python's stable `sorted(...)` returns; kept structural
so that concrete scenarios evaluate inside the kernel. -/
def isort {α : Type} (le : α → α → Bool) : List α → List α
  | [] => []
  | a :: t => insertLe le a (isort le t)

/-- Whether a `store_chunk` call on this node would currently succeed. -/
def accepts (n : Node) : Bool :=
  decide (n.storage.length < n.capacity ∧ n.active = true)

/-- Comparison used to model `sorted(self.nodes, key=lambda x: len(x.storage))`
on node positions: Python's stable sort by load coincides with sorting the
positions by the total lexicographic key (load, position). -/
def loadLe (nodes : List Node) (i j : Nat) : Bool :=
  decide ((nodes.getD i dummyNode).storage.length < (nodes.getD j dummyNode).storage.length ∨
    ((nodes.getD i dummyNode).storage.length = (nodes.getD j dummyNode).storage.length ∧ i ≤ j))

/-- Node positions in the order produced by `sorted(self.nodes, key=...)`. -/
def sortedIdx (nodes : List Node) : List Nat :=
  isort (loadLe nodes) (List.range nodes.length)

/-- The per-chunk placement loop of `upload_file`: walk the sorted nodes, store
the chunk where accepted, append a replica record per success, and stop once
`replicas_placed` reaches `replication_factor` (checked after incrementing,
exactly as in the source). -/
def placeGo (rf : Nat) (fh : String) (cid : ChunkId) (data : Bytes) :
    List Nat → List Node → Md → Nat → List Node × Md
  | [], nodes, md, _ => (nodes, md)
  | i :: rest, nodes, md, placed =>
    let r := (nodes.getD i dummyNode).store_chunk cid data
    if r.1 then
      let nodes1 := nodes.set i r.2
      let md1 := mdAppend fh (r.2.node_id, cid) md
      if placed + 1 = rf then (nodes1, md1)
      else placeGo rf fh cid data rest nodes1 md1 (placed + 1)
    else
      placeGo rf fh cid data rest nodes md placed

/-- Placement of a single chunk: the node ranking is computed from the current
node states and then walked from the front. -/
def placeChunk (rf : Nat) (fh : String) (seq : Nat) (data : Bytes)
    (nodes : List Node) (md : Md) : List Node × Md :=
  placeGo rf fh (fh, seq) data (sortedIdx nodes) nodes md 0

/-- The chunk loop of `upload_file`, carrying the sequence number. -/
def uploadChunks (rf : Nat) (fh : String) : Nat → List Bytes → List Node × Md → List Node × Md
  | _, [], s => s
  | seq, c :: cs, s => uploadChunks rf fh (seq + 1) cs (placeChunk rf fh seq c s.1 s.2)

/-- `DFS.upload_file(filename, content)`: hash the filename, split the content
into chunks, place every chunk, and return the file hash unconditionally. -/
def DFS.upload_file (H : String → String) (st : DFS) (filename : String)
    (content : Bytes) : String × DFS :=
  let fh := H filename
  let r := uploadChunks st.replication_factor fh 0 (splitChunks st.chunk_size content)
    (st.nodes, st.metadata)
  (fh, { st with nodes := r.1, metadata := r.2 })

/-- Comparison by the sequence number parsed from the chunk id, used for
`sorted(chunks.items(), key=lambda x: int(x[0].split('_chunk_')[1]))`. -/
def seqLe (a b : ChunkId × Bytes) : Bool :=
  decide (a.1.2 ≤ b.1.2)

/-- The fetch loop of `download_file`: build the dict of retrievable chunks,
skipping falsy results (`None` or empty bytes). -/
def fetchChunks (nodes : List Node) : Records → List (ChunkId × Bytes) → List (ChunkId × Bytes)
  | [], acc => acc
  | r :: rest, acc =>
    match (nodes.getD r.1 dummyNode).retrieve_chunk r.2 with
    | some d => if d.isEmpty then fetchChunks nodes rest acc
                else fetchChunks nodes rest (setA r.2 d acc)
    | none => fetchChunks nodes rest acc

/-- `DFS.download_file(file_hash)`: `None` for an unknown hash or when no chunk
is retrievable; otherwise the concatenation, in sequence-number order, of
whatever chunks could be fetched. -/
def DFS.download_file (st : DFS) (fh : String) : Option Bytes :=
  match getA fh st.metadata with
  | none => none
  | some recs =>
    let chunks := fetchChunks st.nodes recs []
    if chunks.isEmpty then none
    else some (((isort seqLe chunks).map Prod.snd).flatten)

/-- Failing the node at position `i` (the monitor's `node.fail()`). -/
def DFS.failNode (st : DFS) (i : Nat) : DFS :=
  { st with nodes := st.nodes.set i (st.nodes.getD i dummyNode).fail }

/-- Metadata events emitted by `recover_data`, in execution order: a replica
record append (line `self.metadata[file_hash].append(...)`) and the stale
record removal (the list-comprehension reassignment), which strips the failed
node's records for every chunk of the file; the removed records are kept in
the event. -/
inductive Event where
  | append (node_id : Nat) (fh : String) (cid : ChunkId)
  | removeStale (failed_id : Nat) (fh : String) (removed : Records)
deriving DecidableEq, Repr

/-- State carried through `recover_data`: nodes, metadata, event trace. -/
structure RecSt where
  nodes : List Node
  md : Md
  tr : List Event
deriving DecidableEq, Repr

/-- The re-placement loop `for new_node in self.nodes: ...`: the first node in
list order that is active, is not the source node, and accepts the store;
returns its position and its updated state.  Nodes that refuse the store are
left unchanged, exactly as `store_chunk` leaves them. -/
def tryPlaceGo (src : Nat) (cid : ChunkId) (data : Bytes) (nodes : List Node) :
    List Nat → Option (Nat × Node)
  | [] => none
  | i :: rest =>
    let n := nodes.getD i dummyNode
    if n.active = true ∧ n.node_id ≠ src then
      let r := n.store_chunk cid data
      if r.1 then some (i, r.2) else tryPlaceGo src cid data nodes rest
    else tryPlaceGo src cid data nodes rest

/-- Walk all node positions in list order looking for a new replica target. -/
def tryPlace (src : Nat) (cid : ChunkId) (data : Bytes) (nodes : List Node) :
    Option (Nat × Node) :=
  tryPlaceGo src cid data nodes (List.range nodes.length)

/-- The inner loop `for node_id, cid in self.metadata[file_hash]:` of
`recover_data`.  Python iterates the live list while the body appends to it,
so the loop is modelled by an index into the current record list, re-read at
every step; the flag is `true` iff the iterator caught up with the end of the
list within the given fuel. -/
def recoverInner (failed : Nat) (fh : String) (cid : ChunkId) :
    Nat → Nat → RecSt → Bool × RecSt
  | 0, _, s => (false, s)
  | fuel + 1, idx, s =>
    let recs := mdGetD fh s.md
    if h : idx < recs.length then
      let r := recs.get ⟨idx, h⟩
      if r.2 = cid ∧ r.1 ≠ failed then
        match (s.nodes.getD r.1 dummyNode).retrieve_chunk cid with
        | some d =>
          if d.isEmpty then recoverInner failed fh cid fuel (idx + 1) s
          else
            match tryPlace r.1 cid d s.nodes with
            | some p =>
              recoverInner failed fh cid fuel (idx + 1)
                { nodes := s.nodes.set p.1 p.2
                  md := mdAppend fh (p.2.node_id, cid) s.md
                  tr := s.tr ++ [Event.append p.2.node_id fh cid] }
            | none => recoverInner failed fh cid fuel (idx + 1) s
        | none => recoverInner failed fh cid fuel (idx + 1) s
      else recoverInner failed fh cid fuel (idx + 1) s
    else (true, s)

/-- One iteration of the outer loop of `recover_data` for an affected
`(file_hash, chunk_id)`: run the inner re-replication loop, then (if it
finished, which in Python is the only way to reach that line) strip every
record of the failed node from the file's record list. -/
def recoverChunkStep (failed : Nat) (fh : String) (cid : ChunkId) (fuel : Nat)
    (s : RecSt) : Bool × RecSt :=
  let r := recoverInner failed fh cid fuel 0 s
  if r.1 then
    let recs := mdGetD fh r.2.md
    (true,
      { nodes := r.2.nodes
        md := mdSet fh (recs.filter (fun p => p.1 ≠ failed)) r.2.md
        tr := r.2.tr ++ [Event.removeStale failed fh (recs.filter (fun p => p.1 = failed))] })
  else r

/-- The snapshot `affected_chunks`: one `(file_hash, chunk_id)` per record of
the failed node, in metadata insertion order. -/
def affectedChunks (failed : Nat) (md : Md) : List (String × ChunkId) :=
  (md.map (fun p => (p.2.filter (fun r => r.1 = failed)).map (fun r => (p.1, r.2)))).flatten

/-- The outer loop of `recover_data` over the affected chunks. -/
def recoverGo (failed : Nat) (fuel : Nat) : List (String × ChunkId) → RecSt → Bool × RecSt
  | [], s => (true, s)
  | a :: rest, s =>
    let r := recoverChunkStep failed a.1 a.2 fuel s
    if r.1 then recoverGo failed fuel rest r.2 else r

/-- `DFS.recover_data(failed_node_id)` with fuel for each inner loop: returns
whether the Python coroutine would have terminated, the state reached so far,
and the trace of metadata events. -/
def DFS.recover_data (st : DFS) (fuel : Nat) (failed : Nat) : Bool × DFS × List Event :=
  let r := recoverGo failed fuel (affectedChunks failed st.metadata)
    { nodes := st.nodes, md := st.metadata, tr := [] }
  (r.1, { st with nodes := r.2.nodes, metadata := r.2.md }, r.2.tr)

/-- States reachable from a fresh engine by the engine's operations
(`download_file` is read-only and does not change the state, so it is not
listed). -/
inductive Reach : DFS → Prop where
  | init : ∀ n rf, Reach (DFS.init n rf)
  | upload : ∀ st H name content, Reach st → Reach (DFS.upload_file H st name content).2
  | fail : ∀ st i, Reach st → Reach (st.failNode i)
  | recover : ∀ st fuel i, Reach st → Reach (st.recover_data fuel i).2.1

/-- Total number of chunks stored across all nodes. -/
def sumLoads (nodes : List Node) : Nat :=
  (nodes.map (fun n => n.storage.length)).sum

/-- Invariant tying the state of the default five-node engine to an upload in
progress: after the chunks with sequence numbers below `bound` of the file
`fh` (split into `chunks`) have been placed into the fresh engine, the node
registry still consists of five active nodes of capacity 100 whose ids equal
their positions, every stored chunk entry is a chunk of this file with its
correct bytes, the metadata index holds (at most) the single key `fh`, and
every replica record points to a node below 5 that actually stores the
chunk's bytes. -/
structure CoreInv (fh : String) (chunks : List Bytes) (bound : Nat) (nodes : List Node)
    (md : Md) : Prop where
  len5 : nodes.length = 5
  ids : ∀ i, i < 5 → (nodes.getD i dummyNode).node_id = i
  caps : ∀ i, i < 5 → (nodes.getD i dummyNode).capacity = 100
  act : ∀ i, i < 5 → (nodes.getD i dummyNode).active = true
  keys : ∀ i, i < 5 → ∀ p ∈ (nodes.getD i dummyNode).storage,
    ∃ j, j < bound ∧ p = ((fh, j), chunks.getD j [])
  mdshape : md = [] ∨ md = [(fh, mdGetD fh md)]
  recs : ∀ r ∈ mdGetD fh md, r.1 < 5 ∧ ∃ j, j < bound ∧ r.2 = (fh, j) ∧
    getA (fh, j) ((nodes.getD r.1 dummyNode).storage) = some (chunks.getD j [])

/-- Concrete scenario: the default engine `DFS(5, 2)` after uploading the same
one-byte file under the same name three times.  The first upload places chunk
0 on nodes 0 and 1, the second on nodes 2 and 3, the third on nodes 4 and 0,
so node 0 is recorded twice for the same chunk id. -/
def tripleUploadSt : DFS :=
  (DFS.upload_file id
    ((DFS.upload_file id
      ((DFS.upload_file id (DFS.init 5 2) "f" [7]).2) "f" [7]).2) "f" [7]).2

/-- Concrete scenario: the default engine `DFS(5, 2)` after uploading a
1025-byte file (chunk 0 of 1024 bytes on nodes 0 and 1, chunk 1 of 1 byte on
nodes 2 and 3) and then failing nodes 2 and 3, so chunk 1 has no responsive
replica while chunk 0 is still retrievable. -/
def lostChunkSt : DFS :=
  (((DFS.upload_file id (DFS.init 5 2) "f" (List.replicate 1025 7)).2).failNode 2).failNode 3

/-- Concrete scenario for recovery over-replication: `DFS(3, 2)`, upload file
"g0" (chunk on nodes 0 and 1), upload file "f" (chunk on nodes 2 and 0), fail
node 0, then upload 98 one-chunk filler files, each of which lands on nodes 1
and 2, bringing both surviving nodes to 99 of their 100 slots. -/
def overRepSt : DFS :=
  (List.range 98).foldl (fun st i => (DFS.upload_file id st (toString i) [7]).2)
    (((DFS.upload_file id
      ((DFS.upload_file id (DFS.init 3 2) "g0" [7]).2) "f" [7]).2).failNode 0)

/-- Concrete scenario: `DFS(5, 3)` after uploading a 1025-byte file whose chunk
0 lands on nodes 0, 1, 2 and chunk 1 on nodes 3, 4, 0, then failing nodes 1, 2
and 0.  Node 0 is recorded for both chunks; chunk 0 has no responsive replica
(nodes 1, 2 are down) while chunk 1 is recoverable from nodes 3 and 4. -/
def staleRemovalSt : DFS :=
  ((((DFS.upload_file id (DFS.init 5 3) "f" (List.replicate 1025 7)).2).failNode 1).failNode
    2).failNode 0

/-! Association-list (dict) lemmas. -/

theorem getA_setA_self {κ β : Type} [DecidableEq κ] (k : κ) (v : β) (l : List (κ × β)) :
    getA k (setA k v l) = some v := by
  induction l with
  | nil => simp [getA, setA]
  | cons p t ih =>
    by_cases h : p.1 = k
    · simp [getA, setA, h]
    · simp [getA, setA, h, ih]

theorem getA_setA_ne {κ β : Type} [DecidableEq κ] {k k' : κ} (v : β) (l : List (κ × β))
    (h : k' ≠ k) : getA k' (setA k v l) = getA k' l := by
  induction l with
  | nil => simp [getA, setA, Ne.symm h]
  | cons p t ih =>
    by_cases hp : p.1 = k
    · subst hp
      have hne : ¬p.1 = k' := fun hc => h hc.symm
      simp [getA, setA, hne]
    · simp only [setA, if_neg hp]
      by_cases hk : p.1 = k'
      · simp [getA, hk]
      · simp [getA, hk, ih]

theorem length_setA_present {κ β : Type} [DecidableEq κ] {k : κ} (v : β) {l : List (κ × β)}
    (h : (getA k l).isSome = true) : (setA k v l).length = l.length := by
  induction l with
  | nil => simp [getA] at h
  | cons p t ih =>
    by_cases hp : p.1 = k
    · simp [setA, hp]
    · simp only [getA, if_neg hp] at h
      simp [setA, hp, ih h]

theorem length_setA_absent {κ β : Type} [DecidableEq κ] {k : κ} (v : β) {l : List (κ × β)}
    (h : getA k l = none) : (setA k v l).length = l.length + 1 := by
  induction l with
  | nil => simp [setA]
  | cons p t ih =>
    by_cases hp : p.1 = k
    · simp [getA, hp] at h
    · simp only [getA, if_neg hp] at h
      simp [setA, hp, ih h]

theorem length_setA_le {κ β : Type} [DecidableEq κ] (k : κ) (v : β) (l : List (κ × β)) :
    (setA k v l).length ≤ l.length + 1 := by
  cases h : getA k l with
  | none => simp [length_setA_absent v h]
  | some w =>
    have : (getA k l).isSome = true := by simp [h]
    simp [length_setA_present v this]

theorem mem_setA {κ β : Type} [DecidableEq κ] {k : κ} {v : β} {l : List (κ × β)} {p : κ × β}
    (h : p ∈ setA k v l) : p ∈ l ∨ p = (k, v) := by
  induction l with
  | nil => simp [setA] at h; simp [h]
  | cons q t ih =>
    by_cases hq : q.1 = k
    · simp only [setA, if_pos hq] at h
      rcases List.mem_cons.mp h with h1 | h1
      · right; rw [h1, hq]
      · left; exact List.mem_cons_of_mem _ h1
    · simp only [setA, if_neg hq] at h
      rcases List.mem_cons.mp h with h1 | h1
      · left; exact h1 ▸ List.mem_cons_self _ _
      · rcases ih h1 with h2 | h2
        · left; exact List.mem_cons_of_mem _ h2
        · right; exact h2

/-! Insertion-sort lemmas. -/

theorem perm_insertLe {α : Type} (le : α → α → Bool) (a : α) (l : List α) :
    (insertLe le a l).Perm (a :: l) := by
  induction l with
  | nil => exact List.Perm.refl _
  | cons b t ih =>
    by_cases h : le a b = true
    · simp [insertLe, h]
    · simp only [insertLe, if_neg h]
      exact (List.Perm.cons b ih).trans (List.Perm.swap a b t)

theorem perm_isort {α : Type} (le : α → α → Bool) (l : List α) : (isort le l).Perm l := by
  induction l with
  | nil => exact List.Perm.refl _
  | cons a t ih => exact (perm_insertLe le a (isort le t)).trans (List.Perm.cons a ih)

theorem mem_isort {α : Type} {le : α → α → Bool} {l : List α} {a : α} :
    a ∈ isort le l ↔ a ∈ l :=
  (perm_isort le l).mem_iff

theorem nodup_isort {α : Type} {le : α → α → Bool} {l : List α} (h : l.Nodup) :
    (isort le l).Nodup :=
  (perm_isort le l).nodup_iff.mpr h

theorem pairwise_insertLe {α : Type} {le : α → α → Bool}
    (htr : ∀ a b c, le a b = true → le b c = true → le a c = true)
    (hto : ∀ a b, le a b = false → le b a = true)
    (a : α) {l : List α} (h : l.Pairwise (fun x y => le x y = true)) :
    (insertLe le a l).Pairwise (fun x y => le x y = true) := by
  induction l with
  | nil => simp [insertLe]
  | cons b t ih =>
    rcases List.pairwise_cons.mp h with ⟨hb, ht⟩
    by_cases hab : le a b = true
    · simp only [insertLe, if_pos hab]
      refine List.pairwise_cons.mpr ⟨?_, h⟩
      intro x hx
      rcases List.mem_cons.mp hx with hx | hx
      · exact hx ▸ hab
      · exact htr a b x hab (hb x hx)
    · simp only [insertLe, if_neg hab]
      refine List.pairwise_cons.mpr ⟨?_, ih ht⟩
      intro x hx
      rcases List.mem_cons.mp ((perm_insertLe le a t).mem_iff.mp hx) with hx | hx
      · exact hx ▸ hto a b (Bool.not_eq_true _ ▸ hab)
      · exact hb x hx

theorem pairwise_isort {α : Type} {le : α → α → Bool}
    (htr : ∀ a b c, le a b = true → le b c = true → le a c = true)
    (hto : ∀ a b, le a b = false → le b a = true)
    (l : List α) : (isort le l).Pairwise (fun x y => le x y = true) := by
  induction l with
  | nil => simp [isort]
  | cons a t ih => exact pairwise_insertLe htr hto a ih

/-! Lemmas about `splitChunks`. -/

theorem splitChunksGo_congr (cs : Nat) :
    ∀ f1 f2 content, content.length ≤ f1 → content.length ≤ f2 →
      splitChunksGo (cs + 1) f1 content = splitChunksGo (cs + 1) f2 content := by
  intro f1
  induction f1 with
  | zero =>
    intro f2 content h1 _
    have : content = [] := List.eq_nil_of_length_eq_zero (Nat.le_zero.mp h1)
    subst this
    cases f2 <;> rfl
  | succ f ih =>
    intro f2 content h1 h2
    cases content with
    | nil => cases f2 <;> rfl
    | cons b t =>
      cases f2 with
      | zero => simp at h2
      | succ f' =>
        simp only [splitChunksGo]
        congr 1
        apply ih
        · simp only [List.length_drop, List.length_cons] at *
          omega
        · simp only [List.length_drop, List.length_cons] at *
          omega

theorem splitChunks_cons (cs : Nat) (b : Nat) (t : Bytes) :
    splitChunks (cs + 1) (b :: t) =
      (b :: t).take (cs + 1) :: splitChunks (cs + 1) ((b :: t).drop (cs + 1)) := by
  show splitChunksGo (cs + 1) (b :: t).length (b :: t) = _
  simp only [List.length_cons, splitChunksGo]
  congr 1
  apply splitChunksGo_congr
  · simp only [List.length_drop, List.length_cons]
    omega
  · rfl

theorem flatten_splitChunksGo (cs : Nat) :
    ∀ fuel content, content.length ≤ fuel →
      (splitChunksGo (cs + 1) fuel content).flatten = content := by
  intro fuel
  induction fuel with
  | zero =>
    intro content h
    have : content = [] := List.eq_nil_of_length_eq_zero (Nat.le_zero.mp h)
    subst this
    rfl
  | succ f ih =>
    intro content h
    cases content with
    | nil => rfl
    | cons b t =>
      simp only [splitChunksGo, List.flatten_cons]
      rw [ih]
      · exact List.take_append_drop _ _
      · simp only [List.length_drop, List.length_cons] at *
        omega

theorem flatten_splitChunks (cs : Nat) (content : Bytes) :
    (splitChunks (cs + 1) content).flatten = content :=
  flatten_splitChunksGo cs content.length content (Nat.le_refl _)

theorem splitChunksGo_nonempty (cs : Nat) :
    ∀ fuel content c, c ∈ splitChunksGo (cs + 1) fuel content → c ≠ [] := by
  intro fuel
  induction fuel with
  | zero => intro content c h; simp [splitChunksGo] at h
  | succ f ih =>
    intro content c h
    cases content with
    | nil => simp [splitChunksGo] at h
    | cons b t =>
      simp only [splitChunksGo] at h
      rcases List.mem_cons.mp h with h | h
      · subst h
        simp [List.take_cons]
      · exact ih _ _ h

theorem splitChunks_nonempty {cs : Nat} {content : Bytes} {c : Bytes}
    (h : c ∈ splitChunks (cs + 1) content) : c ≠ [] :=
  splitChunksGo_nonempty cs content.length content c h

theorem splitChunksGo_length_le (cs : Nat) :
    ∀ fuel content m, content.length ≤ fuel → content.length ≤ m * (cs + 1) →
      (splitChunksGo (cs + 1) fuel content).length ≤ m := by
  intro fuel
  induction fuel with
  | zero => intro content m _ _; cases content <;> simp [splitChunksGo]
  | succ f ih =>
    intro content m h hm
    cases content with
    | nil => simp [splitChunksGo]
    | cons b t =>
      cases m with
      | zero => simp at hm
      | succ m =>
        simp only [splitChunksGo, List.length_cons]
        have := ih ((b :: t).drop (cs + 1)) m
          (by simp only [List.length_drop, List.length_cons] at *; omega)
          (by simp only [List.length_drop, List.length_cons, Nat.succ_mul] at *; omega)
        omega

theorem splitChunks_length_le {cs m : Nat} {content : Bytes}
    (h : content.length ≤ m * (cs + 1)) : (splitChunks (cs + 1) content).length ≤ m :=
  splitChunksGo_length_le cs content.length content m (Nat.le_refl _) h

/-! Contract of `Node.store_chunk` (claim C4). -/

/-- C4: `store_chunk` succeeds and stores iff the node is active and its chunk
count is strictly below capacity; otherwise it returns `False` and leaves the
node unchanged; a successful store writes the data under the chunk id,
overwriting an existing entry (and keeping the chunk count unchanged in that
case) while leaving every other chunk id untouched. -/
theorem store_chunk_contract (n : Node) (cid : ChunkId) (data : Bytes) :
    ((n.store_chunk cid data).1 = true ↔ n.storage.length < n.capacity ∧ n.active = true) ∧
    ((n.store_chunk cid data).1 = true →
      (n.store_chunk cid data).2 = { n with storage := setA cid data n.storage } ∧
      getA cid (n.store_chunk cid data).2.storage = some data ∧
      (∀ k, k ≠ cid → getA k (n.store_chunk cid data).2.storage = getA k n.storage) ∧
      ((getA cid n.storage).isSome = true →
        (n.store_chunk cid data).2.storage.length = n.storage.length)) ∧
    ((n.store_chunk cid data).1 = false → (n.store_chunk cid data).2 = n) := by
  by_cases h : n.storage.length < n.capacity ∧ n.active = true
  · refine ⟨by simp [Node.store_chunk, h], fun _ => ⟨by simp [Node.store_chunk, h], ?_, ?_, ?_⟩,
      fun hf => ?_⟩
    · simp [Node.store_chunk, h, getA_setA_self]
    · intro k hk
      simp [Node.store_chunk, h, getA_setA_ne data _ hk]
    · intro hs
      simp [Node.store_chunk, h, length_setA_present data hs]
    · simp [Node.store_chunk, h] at hf
  · refine ⟨by simp [Node.store_chunk, h], fun ht => ?_, fun _ => by simp [Node.store_chunk, h]⟩
    simp [Node.store_chunk, h] at ht

/-- Witness for C4 at a concrete node: a fresh node accepts a store, and the
stored data is readable back. -/
theorem store_chunk_contract_witness :
    ((Node.init 0).store_chunk ("f", 0) [7]).1 = true ∧
    getA ("f", 0) ((Node.init 0).store_chunk ("f", 0) [7]).2.storage = some [7] := by
  have h := store_chunk_contract (Node.init 0) ("f", 0) [7]
  have ht : ((Node.init 0).store_chunk ("f", 0) [7]).1 = true := h.1.mpr (by decide)
  exact ⟨ht, (h.2.1 ht).2.1⟩

/-! Capacity invariant over reachable states (claim C6). -/

theorem getD_mem_or_eq {α : Type} (l : List α) (i : Nat) (d : α) :
    l.getD i d ∈ l ∨ l.getD i d = d := by
  induction l generalizing i with
  | nil => right; rfl
  | cons a t ih =>
    cases i with
    | zero => left; exact List.mem_cons_self _ _
    | succ j =>
      rcases ih j with h | h
      · left; exact List.mem_cons_of_mem _ h
      · right; exact h

theorem nodeInv_store {n : Node} (cid : ChunkId) (data : Bytes)
    (h : n.storage.length ≤ n.capacity) :
    (n.store_chunk cid data).2.storage.length ≤ (n.store_chunk cid data).2.capacity := by
  by_cases hc : n.storage.length < n.capacity ∧ n.active = true
  · simp only [Node.store_chunk, if_pos hc]
    calc (setA cid data n.storage).length ≤ n.storage.length + 1 := length_setA_le _ _ _
      _ ≤ n.capacity := hc.1
  · simpa [Node.store_chunk, if_neg hc] using h

theorem nodeInv_fail {n : Node} (h : n.storage.length ≤ n.capacity) :
    n.fail.storage.length ≤ n.fail.capacity := h

/-- The placement loops and recovery only ever touch nodes through
`store_chunk` at a single position, so the capacity bound is preserved. -/
theorem nodesInv_set_store {nodes : List Node} (i : Nat) (cid : ChunkId) (data : Bytes)
    (h : ∀ n ∈ nodes, n.storage.length ≤ n.capacity) :
    ∀ n ∈ nodes.set i ((nodes.getD i dummyNode).store_chunk cid data).2,
      n.storage.length ≤ n.capacity := by
  intro n hn
  rcases List.mem_or_eq_of_mem_set hn with hm | he
  · exact h n hm
  · subst he
    apply nodeInv_store
    rcases getD_mem_or_eq nodes i dummyNode with hm | hd
    · exact h _ hm
    · rw [hd]; decide

theorem nodesInv_placeGo (rf : Nat) (fh : String) (cid : ChunkId) (data : Bytes) :
    ∀ (order : List Nat) (nodes : List Node) (md : Md) (placed : Nat),
      (∀ n ∈ nodes, n.storage.length ≤ n.capacity) →
      ∀ n ∈ (placeGo rf fh cid data order nodes md placed).1, n.storage.length ≤ n.capacity := by
  intro order
  induction order with
  | nil => intro nodes md placed h; exact h
  | cons i rest ih =>
    intro nodes md placed h
    simp only [placeGo]
    by_cases hs : ((nodes.getD i dummyNode).store_chunk cid data).1 = true
    · simp only [if_pos hs]
      by_cases hp : placed + 1 = rf
      · simp only [if_pos hp]
        exact nodesInv_set_store i cid data h
      · simp only [if_neg hp]
        exact ih _ _ _ (nodesInv_set_store i cid data h)
    · simp only [Bool.not_eq_true] at hs
      simp only [hs, Bool.false_eq_true, if_false]
      exact ih _ _ _ h

theorem nodesInv_uploadChunks (rf : Nat) (fh : String) :
    ∀ (cs : List Bytes) (seq : Nat) (s : List Node × Md),
      (∀ n ∈ s.1, n.storage.length ≤ n.capacity) →
      ∀ n ∈ (uploadChunks rf fh seq cs s).1, n.storage.length ≤ n.capacity := by
  intro cs
  induction cs with
  | nil => intro seq s h; exact h
  | cons c rest ih =>
    intro seq s h
    exact ih _ _ (nodesInv_placeGo rf fh (fh, seq) c _ s.1 s.2 0 h)

theorem tryPlaceGo_inv {src : Nat} {cid : ChunkId} {data : Bytes} {nodes : List Node}
    (h : ∀ n ∈ nodes, n.storage.length ≤ n.capacity) :
    ∀ (idxs : List Nat) (p : Nat × Node), tryPlaceGo src cid data nodes idxs = some p →
      p.2.storage.length ≤ p.2.capacity := by
  intro idxs
  induction idxs with
  | nil => intro p hp; simp [tryPlaceGo] at hp
  | cons i rest ih =>
    intro p hp
    simp only [tryPlaceGo] at hp
    by_cases hc : (nodes.getD i dummyNode).active = true ∧ (nodes.getD i dummyNode).node_id ≠ src
    · simp only [if_pos hc] at hp
      by_cases hs : ((nodes.getD i dummyNode).store_chunk cid data).1 = true
      · simp only [if_pos hs, Option.some.injEq] at hp
        subst hp
        apply nodeInv_store
        rcases getD_mem_or_eq nodes i dummyNode with hm | hd
        · exact h _ hm
        · rw [hd]; decide
      · simp only [Bool.not_eq_true] at hs
        simp only [hs, Bool.false_eq_true, if_false] at hp
        exact ih p hp
    · simp only [if_neg hc] at hp
      exact ih p hp

theorem nodesInv_recoverInner (failed : Nat) (fh : String) (cid : ChunkId) :
    ∀ (fuel idx : Nat) (s : RecSt),
      (∀ n ∈ s.nodes, n.storage.length ≤ n.capacity) →
      ∀ n ∈ (recoverInner failed fh cid fuel idx s).2.nodes, n.storage.length ≤ n.capacity := by
  intro fuel
  induction fuel with
  | zero => intro idx s h; exact h
  | succ f ih =>
    intro idx s h
    simp only [recoverInner]
    by_cases hidx : idx < (mdGetD fh s.md).length
    · simp only [dif_pos hidx]
      set r := (mdGetD fh s.md).get ⟨idx, hidx⟩ with hr
      by_cases hc : r.2 = cid ∧ r.1 ≠ failed
      · simp only [if_pos hc]
        cases hretr : (s.nodes.getD r.1 dummyNode).retrieve_chunk cid with
        | none => exact ih _ _ h
        | some d =>
          by_cases hd : d.isEmpty
          · simp only [if_pos hd]
            exact ih _ _ h
          · simp only [if_neg hd]
            cases hp : tryPlace r.1 cid d s.nodes with
            | none => exact ih _ _ h
            | some p =>
              apply ih
              intro n hn
              rcases List.mem_or_eq_of_mem_set hn with hm | he
              · exact h n hm
              · subst he
                exact tryPlaceGo_inv h _ p hp
      · simp only [if_neg hc]
        exact ih _ _ h
    · simp only [dif_neg hidx]
      exact h

theorem nodesInv_recoverChunkStep (failed : Nat) (fh : String) (cid : ChunkId) (fuel : Nat)
    (s : RecSt) (h : ∀ n ∈ s.nodes, n.storage.length ≤ n.capacity) :
    ∀ n ∈ (recoverChunkStep failed fh cid fuel s).2.nodes, n.storage.length ≤ n.capacity := by
  simp only [recoverChunkStep]
  by_cases hc : (recoverInner failed fh cid fuel 0 s).1 = true
  · simp only [if_pos hc]
    exact nodesInv_recoverInner failed fh cid fuel 0 s h
  · simp only [Bool.not_eq_true] at hc
    simp only [hc, Bool.false_eq_true, if_false]
    exact nodesInv_recoverInner failed fh cid fuel 0 s h

theorem nodesInv_recoverGo (failed fuel : Nat) :
    ∀ (affected : List (String × ChunkId)) (s : RecSt),
      (∀ n ∈ s.nodes, n.storage.length ≤ n.capacity) →
      ∀ n ∈ (recoverGo failed fuel affected s).2.nodes, n.storage.length ≤ n.capacity := by
  intro affected
  induction affected with
  | nil => intro s h; exact h
  | cons a rest ih =>
    intro s h
    simp only [recoverGo]
    by_cases hc : (recoverChunkStep failed a.1 a.2 fuel s).1 = true
    · simp only [if_pos hc]
      exact ih _ (nodesInv_recoverChunkStep failed a.1 a.2 fuel s h)
    · simp only [Bool.not_eq_true] at hc
      simp only [hc, Bool.false_eq_true, if_false]
      exact nodesInv_recoverChunkStep failed a.1 a.2 fuel s h

theorem nodesInv_reach {st : DFS} (h : Reach st) :
    ∀ n ∈ st.nodes, n.storage.length ≤ n.capacity := by
  induction h with
  | init n rf =>
    intro x hx
    simp only [DFS.init, List.mem_map] at hx
    rcases hx with ⟨i, _, rfl⟩
    simp [Node.init]
  | upload st H name content _ ih =>
    exact nodesInv_uploadChunks _ _ _ _ _ ih
  | fail st i _ ih =>
    intro n hn
    rcases List.mem_or_eq_of_mem_set hn with hm | he
    · exact ih n hm
    · subst he
      apply nodeInv_fail
      rcases getD_mem_or_eq st.nodes i dummyNode with hm | hd
      · exact ih _ hm
      · rw [hd]; decide
  | recover st fuel i _ ih =>
    exact nodesInv_recoverGo _ _ _ _ ih

/-- C6: in every reachable state no node holds more chunks than its capacity,
and an inactive node rejects stores (returning `False` and staying unchanged)
and retrieves (returning `None`), so no store or successful retrieve is ever
performed against an inactive node. -/
theorem capacity_and_inactive_invariant :
    (∀ st, Reach st → ∀ n ∈ st.nodes, n.storage.length ≤ n.capacity) ∧
    (∀ (n : Node) (cid : ChunkId) (data : Bytes), n.active = false →
      n.store_chunk cid data = (false, n) ∧ n.retrieve_chunk cid = none) := by
  constructor
  · intro st h
    exact nodesInv_reach h
  · intro n cid data h
    constructor
    · have : ¬(n.storage.length < n.capacity ∧ n.active = true) := by
        intro hc
        rw [h] at hc
        exact Bool.false_ne_true hc.2
      simp [Node.store_chunk, this]
    · simp [Node.retrieve_chunk, h]

/-- Witness for C6 at concrete inputs: a node of the fresh default engine
satisfies the capacity bound, and a concretely failed node rejects a store and
a retrieve. -/
theorem capacity_and_inactive_invariant_witness :
    (Node.init 0).storage.length ≤ (Node.init 0).capacity ∧
    ((Node.init 3).fail.store_chunk ("f", 0) [7] = (false, (Node.init 3).fail) ∧
      (Node.init 3).fail.retrieve_chunk ("f", 0) = none) :=
  ⟨capacity_and_inactive_invariant.1 (DFS.init 5 2) (Reach.init 5 2) (Node.init 0) (by decide),
   capacity_and_inactive_invariant.2 ((Node.init 3).fail) ("f", 0) [7] (by decide)⟩

/-! Placement policy (claim C5). -/

theorem store_chunk_fst (n : Node) (cid : ChunkId) (data : Bytes) :
    (n.store_chunk cid data).1 = accepts n := by
  by_cases h : n.storage.length < n.capacity ∧ n.active = true
  · simp [Node.store_chunk, accepts, h]
  · simp [Node.store_chunk, accepts, h]

theorem store_chunk_node_id (n : Node) (cid : ChunkId) (data : Bytes) :
    (n.store_chunk cid data).2.node_id = n.node_id := by
  by_cases h : n.storage.length < n.capacity ∧ n.active = true
  · simp [Node.store_chunk, h]
  · simp [Node.store_chunk, h]

theorem getD_set_ne {α : Type} (l : List α) {i j : Nat} (x d : α) (h : j ≠ i) :
    (l.set i x).getD j d = l.getD j d := by
  induction l generalizing i j with
  | nil => rfl
  | cons a t ih =>
    cases i with
    | zero =>
      cases j with
      | zero => exact absurd rfl h
      | succ j2 => rfl
    | succ i2 =>
      cases j with
      | zero => rfl
      | succ j2 => exact ih (fun hc => h (congrArg Nat.succ hc))

theorem mdGetD_mdAppend_self (fh : String) (r : Nat × ChunkId) (md : Md) :
    mdGetD fh (mdAppend fh r md) = mdGetD fh md ++ [r] := by
  induction md with
  | nil => simp [mdGetD, mdAppend, getA]
  | cons p t ih =>
    by_cases h : p.1 = fh
    · simp [mdGetD, mdAppend, getA, h]
    · simp only [mdAppend, if_neg h]
      simpa [mdGetD, getA, h] using ih

theorem mdGetD_mdAppend_ne {fh fh' : String} (r : Nat × ChunkId) (md : Md) (h : fh' ≠ fh) :
    mdGetD fh' (mdAppend fh r md) = mdGetD fh' md := by
  induction md with
  | nil => simp [mdGetD, mdAppend, getA, Ne.symm h]
  | cons p t ih =>
    by_cases hp : p.1 = fh
    · have hne : ¬fh = fh' := fun hc => h hc.symm
      simp [mdGetD, mdAppend, getA, hp, hne]
    · simp only [mdAppend, if_neg hp]
      by_cases hq : p.1 = fh'
      · simp [mdGetD, getA, hq]
      · simpa [mdGetD, getA, hq] using ih

/-- Characterization of the per-chunk placement loop: the replica records
appended for this chunk are exactly the first `rf - placed` entries of the
ranking that accept the store, each evaluated against the node states the
ranking was computed from (a store at one position does not change whether a
different node accepts). -/
theorem placeGo_md (rf : Nat) (fh : String) (cid : ChunkId) (data : Bytes) :
    ∀ (order : List Nat) (nodes0 nodes : List Node) (md : Md) (placed : Nat),
      order.Nodup →
      (∀ j ∈ order, nodes.getD j dummyNode = nodes0.getD j dummyNode) →
      placed < rf →
      mdGetD fh (placeGo rf fh cid data order nodes md placed).2 =
        mdGetD fh md ++
          ((order.filter (fun i => accepts (nodes0.getD i dummyNode))).take (rf - placed)).map
            (fun i => ((nodes0.getD i dummyNode).node_id, cid)) := by
  intro order
  induction order with
  | nil => intro nodes0 nodes md placed _ _ _; simp [placeGo]
  | cons i rest ih =>
    intro nodes0 nodes md placed hnd hsame hlt
    have hsame_i : nodes.getD i dummyNode = nodes0.getD i dummyNode :=
      hsame i (List.mem_cons_self _ _)
    have hnd_rest : rest.Nodup := (List.nodup_cons.mp hnd).2
    have hni : i ∉ rest := (List.nodup_cons.mp hnd).1
    simp only [placeGo]
    cases hacc : accepts (nodes0.getD i dummyNode) with
    | true =>
      have hs : ((nodes.getD i dummyNode).store_chunk cid data).1 = true := by
        rw [store_chunk_fst, hsame_i]; exact hacc
      simp only [if_pos hs]
      have hid : ((nodes.getD i dummyNode).store_chunk cid data).2.node_id =
          (nodes0.getD i dummyNode).node_id := by
        rw [store_chunk_node_id, hsame_i]
      have hfilter : (i :: rest).filter (fun j => accepts (nodes0.getD j dummyNode)) =
          i :: rest.filter (fun j => accepts (nodes0.getD j dummyNode)) := by
        rw [List.filter_cons]
        simp only [hacc, if_true]
      by_cases hp : placed + 1 = rf
      · simp only [if_pos hp]
        have hrp : rf - placed = 1 := by omega
        rw [hfilter, hrp, mdGetD_mdAppend_self, hid]
        simp
      · simp only [if_neg hp]
        have hlt2 : placed + 1 < rf := by omega
        have hsame2 : ∀ j ∈ rest,
            (nodes.set i ((nodes.getD i dummyNode).store_chunk cid data).2).getD j dummyNode =
              nodes0.getD j dummyNode := by
          intro j hj
          rw [getD_set_ne _ _ _ (fun (hc : j = i) => hni (hc ▸ hj))]
          exact hsame j (List.mem_cons_of_mem _ hj)
        rw [ih nodes0 _ _ _ hnd_rest hsame2 hlt2, mdGetD_mdAppend_self, hid, hfilter]
        have hrp : rf - placed = (rf - (placed + 1)) + 1 := by omega
        rw [hrp, List.take_succ_cons]
        simp
    | false =>
      have hs : ((nodes.getD i dummyNode).store_chunk cid data).1 = false := by
        rw [store_chunk_fst, hsame_i]; exact hacc
      simp only [hs, Bool.false_eq_true, if_false]
      have hfilter : (i :: rest).filter (fun j => accepts (nodes0.getD j dummyNode)) =
          rest.filter (fun j => accepts (nodes0.getD j dummyNode)) := by
        rw [List.filter_cons]
        simp only [hacc, Bool.false_eq_true, if_false]
      rw [ih nodes0 _ _ _ hnd_rest (fun j hj => hsame j (List.mem_cons_of_mem _ hj)) hlt,
        hfilter]

theorem loadLe_trans (nodes : List Node) :
    ∀ a b c, loadLe nodes a b = true → loadLe nodes b c = true → loadLe nodes a c = true := by
  intro a b c hab hbc
  simp only [loadLe, decide_eq_true_eq] at *
  omega

theorem loadLe_total (nodes : List Node) :
    ∀ a b, loadLe nodes a b = false → loadLe nodes b a = true := by
  intro a b h
  simp only [loadLe, decide_eq_true_eq, decide_eq_false_iff_not] at *
  omega

theorem sortedIdx_perm (nodes : List Node) :
    (sortedIdx nodes).Perm (List.range nodes.length) :=
  perm_isort _ _

theorem sortedIdx_nodup (nodes : List Node) : (sortedIdx nodes).Nodup :=
  nodup_isort (List.nodup_range _)

theorem sortedIdx_sorted (nodes : List Node) :
    (sortedIdx nodes).Pairwise (fun i j => loadLe nodes i j = true) :=
  pairwise_isort (loadLe_trans nodes) (loadLe_total nodes) _

/-- C5: during upload each chunk is placed by ranking all node positions by
ascending chunk count with ties broken by position (equal to node id), a
ranking that contains every node exactly once; placements walk this ranking
from the front, recording exactly the first `replication_factor` accepting
nodes (all of them if fewer accept); and the chunk loop re-evaluates the
ranking for each chunk against the node states left by the previous chunk
rather than reusing one ranking for the whole file. -/
theorem placement_ranking (nodes : List Node) (md : Md) (fh : String) (seq : Nat)
    (data : Bytes) (rf : Nat) (hrf : 1 ≤ rf) (cs : List Bytes) (k : Nat)
    (s : List Node × Md) (c : Bytes) :
    ((sortedIdx nodes).Perm (List.range nodes.length) ∧
      (sortedIdx nodes).Pairwise (fun i j => loadLe nodes i j = true)) ∧
    mdGetD fh (placeChunk rf fh seq data nodes md).2 =
      mdGetD fh md ++
        (((sortedIdx nodes).filter (fun i => accepts (nodes.getD i dummyNode))).take rf).map
          (fun i => ((nodes.getD i dummyNode).node_id, (fh, seq))) ∧
    uploadChunks rf fh k (c :: cs) s = uploadChunks rf fh (k + 1) cs (placeChunk rf fh k c s.1 s.2) := by
  refine ⟨⟨sortedIdx_perm nodes, sortedIdx_sorted nodes⟩, ?_, rfl⟩
  have h := placeGo_md rf fh (fh, seq) data (sortedIdx nodes) nodes nodes md 0
    (sortedIdx_nodup nodes) (fun j _ => rfl) (by omega)
  simpa [placeChunk] using h

/-- Witness for C5 on the fresh default engine after one chunk has landed on
nodes 0 and 1: the ranking for the next chunk is recomputed as
`[2, 3, 4, 0, 1]` and the records appended are the first two accepting
entries. -/
theorem placement_ranking_witness :
    ((sortedIdx (DFS.upload_file id (DFS.init 5 2) "f" [7]).2.nodes).Perm (List.range 5) ∧
      (sortedIdx (DFS.upload_file id (DFS.init 5 2) "f" [7]).2.nodes).Pairwise
        (fun i j => loadLe (DFS.upload_file id (DFS.init 5 2) "f" [7]).2.nodes i j = true)) ∧
    mdGetD "f"
        (placeChunk 2 "f" 1 [8] (DFS.upload_file id (DFS.init 5 2) "f" [7]).2.nodes
          (DFS.upload_file id (DFS.init 5 2) "f" [7]).2.metadata).2 =
      mdGetD "f" (DFS.upload_file id (DFS.init 5 2) "f" [7]).2.metadata ++
        (((sortedIdx (DFS.upload_file id (DFS.init 5 2) "f" [7]).2.nodes).filter
            (fun i => accepts ((DFS.upload_file id (DFS.init 5 2) "f" [7]).2.nodes.getD i
              dummyNode))).take 2).map
          (fun i => (((DFS.upload_file id (DFS.init 5 2) "f" [7]).2.nodes.getD i
            dummyNode).node_id, ("f", 1))) ∧
    uploadChunks 2 "f" 0 [[7], [8]] ((DFS.init 5 2).nodes, []) =
      uploadChunks 2 "f" 1 [[8]] (placeChunk 2 "f" 0 [7] (DFS.init 5 2).nodes []) := by
  have h := placement_ranking (DFS.upload_file id (DFS.init 5 2) "f" [7]).2.nodes
    (DFS.upload_file id (DFS.init 5 2) "f" [7]).2.metadata "f" 1 [8] 2 (by omega)
    [[8]] 0 ((DFS.init 5 2).nodes, []) [7]
  exact ⟨h.1, h.2.1, h.2.2⟩

/-! Recovery event ordering (claim C7) and over-replication (claim C9). -/

theorem recoverInner_trace (failed : Nat) (fh : String) (cid : ChunkId) :
    ∀ (fuel idx : Nat) (s : RecSt),
      ∃ apps : List Event,
        (recoverInner failed fh cid fuel idx s).2.tr = s.tr ++ apps ∧
        ∀ e ∈ apps, ∃ nid, e = Event.append nid fh cid := by
  intro fuel
  induction fuel with
  | zero =>
    intro idx s
    exact ⟨[], by simp [recoverInner], by simp⟩
  | succ f ih =>
    intro idx s
    simp only [recoverInner]
    by_cases hidx : idx < (mdGetD fh s.md).length
    · simp only [dif_pos hidx]
      set r := (mdGetD fh s.md).get ⟨idx, hidx⟩ with hr
      by_cases hc : r.2 = cid ∧ r.1 ≠ failed
      · simp only [if_pos hc]
        cases hretr : (s.nodes.getD r.1 dummyNode).retrieve_chunk cid with
        | none => exact ih _ _
        | some d =>
          by_cases hd : d.isEmpty
          · simp only [if_pos hd]
            exact ih _ _
          · simp only [if_neg hd]
            cases hp : tryPlace r.1 cid d s.nodes with
            | none => exact ih _ _
            | some p =>
              rcases ih (idx + 1)
                { nodes := s.nodes.set p.1 p.2
                  md := mdAppend fh (p.2.node_id, cid) s.md
                  tr := s.tr ++ [Event.append p.2.node_id fh cid] } with ⟨apps, htr, hall⟩
              refine ⟨Event.append p.2.node_id fh cid :: apps, ?_, ?_⟩
              · simpa using htr
              · intro e he
                rcases List.mem_cons.mp he with he | he
                · exact ⟨p.2.node_id, he⟩
                · exact hall e he
      · simp only [if_neg hc]
        exact ih _ _
    · simp only [dif_neg hidx]
      exact ⟨[], by simp, by simp⟩

/-- Amended C7: within a single outer-loop iteration of `recover_data` for an
affected `(file, chunk)` pair, every metadata event is a replica-record append
for exactly that chunk, and the single stale-record removal (emitted only if
the inner loop finished) comes after all of them, at the very end of the
iteration.  The claim as frozen fails across iterations because the removal
strips the failed node's records for every chunk of the file, not only for
the chunk being processed (see the counterexample). -/
theorem recover_iteration_trace (failed : Nat) (fh : String) (cid : ChunkId) (fuel : Nat)
    (s : RecSt) :
    ∃ (apps : List Event) (rem : Records),
      (∀ e ∈ apps, ∃ nid, e = Event.append nid fh cid) ∧
      (recoverChunkStep failed fh cid fuel s).2.tr =
        s.tr ++ apps ++
          (if (recoverChunkStep failed fh cid fuel s).1 then
            [Event.removeStale failed fh rem] else []) := by
  rcases recoverInner_trace failed fh cid fuel 0 s with ⟨apps, htr, hall⟩
  refine ⟨apps,
    (mdGetD fh (recoverInner failed fh cid fuel 0 s).2.md).filter (fun p => p.1 = failed),
    hall, ?_⟩
  simp only [recoverChunkStep]
  by_cases hc : (recoverInner failed fh cid fuel 0 s).1 = true
  · simp [hc, htr]
  · simp only [Bool.not_eq_true] at hc
    simp [hc, htr]

/-- Witness for the amended C7 on a concrete two-node state: the iteration for
a chunk whose only replica record points at the failed node emits no append
and ends with the stale-record removal. -/
theorem recover_iteration_trace_witness :
    ∃ (apps : List Event) (rem : Records),
      (∀ e ∈ apps, ∃ nid, e = Event.append nid "f" ("f", 0)) ∧
      (recoverChunkStep 0 "f" ("f", 0) 3
          { nodes := [Node.init 0, Node.init 1]
            md := [("f", [(0, ("f", 0)), (1, ("f", 0))])]
            tr := [] }).2.tr =
        [] ++ apps ++
          (if (recoverChunkStep 0 "f" ("f", 0) 3
              { nodes := [Node.init 0, Node.init 1]
                md := [("f", [(0, ("f", 0)), (1, ("f", 0))])]
                tr := [] }).1 then
            [Event.removeStale 0 "f" rem] else []) :=
  recover_iteration_trace 0 "f" ("f", 0) 3
    { nodes := [Node.init 0, Node.init 1]
      md := [("f", [(0, ("f", 0)), (1, ("f", 0))])]
      tr := [] }

set_option maxRecDepth 8000 in
set_option maxHeartbeats 1000000 in
/-- Counterexample to C7 as frozen: in `staleRemovalSt` the failed node 0 is
recorded for both chunks of file "f"; the recovery trace opens with the
stale-record removal (triggered by the unrecoverable chunk 0) which strips
node 0's record for chunk 1 as well, and only afterwards appends a replacement
record for chunk 1 — an append that happens after the removal of the failed
node's stale record for that same chunk id. -/
theorem stale_removal_before_append_counterexample :
    (0, ("f", 1)) ∈ mdGetD "f" staleRemovalSt.metadata ∧
    (staleRemovalSt.recover_data 12 0).2.2.take 2 =
      [Event.removeStale 0 "f" [(0, ("f", 0)), (0, ("f", 1))],
        Event.append 4 "f" ("f", 1)] := by
  constructor
  · decide
  · decide

set_option maxRecDepth 8000 in
set_option maxHeartbeats 4000000 in
/-- C9: a reachable state (`overRepSt`, reached by uploads and one node
failure) on which `recover_data` terminates, appends two replica records for
the single chunk of file "g0", and leaves that chunk with three replica
records although the replication factor is two. -/
theorem recover_over_replication :
    (overRepSt.recover_data 1000 0).1 = true ∧
    ((overRepSt.recover_data 1000 0).2.2.count (Event.append 2 "g0" ("g0", 0))) +
      ((overRepSt.recover_data 1000 0).2.2.count (Event.append 1 "g0" ("g0", 0))) = 2 ∧
    (mdGetD "g0" (overRepSt.recover_data 1000 0).2.1.metadata).length = 3 ∧
    overRepSt.replication_factor = 2 := by
  refine ⟨?_, ?_, ?_, ?_⟩ <;> decide

/-! Download truncation (claim C2). -/

set_option maxRecDepth 8000 in
set_option maxHeartbeats 1000000 in
/-- C2 shows a code bug: in `lostChunkSt` the 1025-byte file "f" has chunk 1
unrecoverable (both of its replica nodes are failed), yet `download_file`
returns the 1024-byte prefix instead of reporting the file as absent — a
silently truncated result. -/
theorem download_truncation_bug :
    lostChunkSt.download_file "f" = some (List.replicate 1024 7) ∧
    lostChunkSt.download_file "f" ≠ none := by
  constructor
  · decide
  · decide

/-! Duplicate replica records (claim C3). -/

/-- C3 shows a code bug: after uploading the same one-chunk file three times,
the metadata for its id lists node 0 twice for the same chunk id, violating
the intended per-`(node_id, chunk_id)` uniqueness. -/
theorem duplicate_replica_record_bug :
    (mdGetD "f" tripleUploadSt.metadata).count (0, ("f", 0)) = 2 := by
  decide

/-! File identity (claim C8). -/

/-- C8: the file id returned by `upload_file` is the digest of the filename
alone: it does not depend on the uploaded content or on the engine state. -/
theorem file_id_depends_only_on_name (H : String → String) (st st' : DFS) (name : String)
    (c1 c2 : Bytes) :
    (DFS.upload_file H st name c1).1 = H name ∧
    (DFS.upload_file H st name c1).1 = (DFS.upload_file H st' name c2).1 :=
  ⟨rfl, rfl⟩

/-! Empty uploads (claim C10). -/

theorem splitChunks_nil (cs : Nat) : splitChunks cs [] = [] := by
  cases cs with
  | zero => rfl
  | succ k => rfl

/-- C10: uploading empty content returns the file id but leaves the state
completely unchanged (no chunks stored, no metadata records), so if the id was
not already present in the metadata index a subsequent download returns
`None`, indistinguishable from a file that was never uploaded. -/
theorem empty_upload_no_effect (H : String → String) (st : DFS) (name : String) :
    (DFS.upload_file H st name []).1 = H name ∧
    (DFS.upload_file H st name []).2 = st ∧
    (getA (H name) st.metadata = none → st.download_file (H name) = none) := by
  refine ⟨rfl, ?_, ?_⟩
  · simp [DFS.upload_file, splitChunks_nil, uploadChunks]
  · intro h
    simp [DFS.download_file, h]

/-- Witness for C10: on a fresh default engine, uploading an empty file under
the name "f" returns the id, changes nothing, and downloading that id yields
`None`. -/
theorem empty_upload_no_effect_witness :
    (DFS.upload_file id (DFS.init 5 2) "f" []).1 = "f" ∧
    (DFS.upload_file id (DFS.init 5 2) "f" []).2 = DFS.init 5 2 ∧
    (DFS.init 5 2).download_file "f" = none := by
  have h := empty_upload_no_effect id (DFS.init 5 2) "f"
  exact ⟨h.1, h.2.1, h.2.2 (by decide)⟩

/-! Round trip of upload and download (claim C1): helper lemmas. -/

theorem getD_set {α : Type} (l : List α) (j i : Nat) (x d : α) :
    (l.set j x).getD i d = if j = i ∧ j < l.length then x else l.getD i d := by
  induction l generalizing i j with
  | nil => simp
  | cons a t ih =>
    cases j with
    | zero =>
      cases i with
      | zero => simp
      | succ i2 => simp
    | succ j2 =>
      cases i with
      | zero => simp
      | succ i2 =>
        simp only [List.set_cons_succ, List.getD_cons_succ, List.length_cons, ih]
        by_cases h1 : j2 = i2 ∧ j2 < t.length
        · rw [if_pos h1, if_pos (by omega)]
        · rw [if_neg h1, if_neg (by omega)]

theorem getD_mem_of_lt {α : Type} (l : List α) (i : Nat) (d : α) (h : i < l.length) :
    l.getD i d ∈ l := by
  induction l generalizing i with
  | nil => simp at h
  | cons a t ih =>
    cases i with
    | zero => exact List.mem_cons_self _ _
    | succ i2 => exact List.mem_cons_of_mem _ (ih i2 (by simpa using h))

theorem store_chunk_active (n : Node) (cid : ChunkId) (data : Bytes) :
    (n.store_chunk cid data).2.active = n.active := by
  by_cases h : n.storage.length < n.capacity ∧ n.active = true
  · simp [Node.store_chunk, h]
  · simp [Node.store_chunk, h]

theorem store_chunk_capacity (n : Node) (cid : ChunkId) (data : Bytes) :
    (n.store_chunk cid data).2.capacity = n.capacity := by
  by_cases h : n.storage.length < n.capacity ∧ n.active = true
  · simp [Node.store_chunk, h]
  · simp [Node.store_chunk, h]

theorem store_chunk_len_le (n : Node) (cid : ChunkId) (data : Bytes) :
    (n.store_chunk cid data).2.storage.length ≤ n.storage.length + 1 := by
  by_cases h : n.storage.length < n.capacity ∧ n.active = true
  · simpa [Node.store_chunk, h] using length_setA_le cid data n.storage
  · simp [Node.store_chunk, h]

theorem store_chunk_storage_success {n : Node} {cid : ChunkId} {data : Bytes}
    (h : (n.store_chunk cid data).1 = true) :
    (n.store_chunk cid data).2.storage = setA cid data n.storage := by
  by_cases hc : n.storage.length < n.capacity ∧ n.active = true
  · simp [Node.store_chunk, hc]
  · simp [Node.store_chunk, hc] at h

theorem sumLoads_set_store (nodes : List Node) (i : Nat) (cid : ChunkId) (data : Bytes) :
    sumLoads (nodes.set i ((nodes.getD i dummyNode).store_chunk cid data).2) ≤
      sumLoads nodes + 1 := by
  induction nodes generalizing i with
  | nil => simp [sumLoads]
  | cons a t ih =>
    cases i with
    | zero =>
      simp only [List.getD_cons_zero, List.set_cons_zero, sumLoads, List.map_cons, List.sum_cons]
      have := store_chunk_len_le a cid data
      omega
    | succ i2 =>
      simp only [List.getD_cons_succ, List.set_cons_succ, sumLoads, List.map_cons, List.sum_cons]
      have := ih i2
      simp only [sumLoads] at this
      omega

theorem sumLoads_lower (l : List Node)
    (h : ∀ i, i < l.length → 100 ≤ (l.getD i dummyNode).storage.length) :
    100 * l.length ≤ sumLoads l := by
  induction l with
  | nil => simp [sumLoads]
  | cons a t ih =>
    have h0 : 100 ≤ a.storage.length := h 0 (by simp)
    have ht := ih (fun i hi => h (i + 1) (by simpa using Nat.succ_lt_succ hi))
    simp only [sumLoads, List.map_cons, List.sum_cons, List.length_cons] at *
    omega

theorem getA_eq_none_iff {κ β : Type} [DecidableEq κ] (k : κ) (l : List (κ × β)) :
    getA k l = none ↔ k ∉ l.map Prod.fst := by
  induction l with
  | nil => simp [getA]
  | cons p t ih =>
    by_cases hp : p.1 = k
    · simp [getA, hp]
    · simp [getA, hp, ih, Ne.symm hp]

theorem getA_some_mem {κ β : Type} [DecidableEq κ] {k : κ} {v : β} {l : List (κ × β)}
    (h : getA k l = some v) : (k, v) ∈ l := by
  induction l with
  | nil => simp [getA] at h
  | cons p t ih =>
    by_cases hp : p.1 = k
    · simp only [getA, if_pos hp, Option.some.injEq] at h
      subst h
      subst hp
      exact List.mem_cons_self _ _
    · simp only [getA, if_neg hp] at h
      exact List.mem_cons_of_mem _ (ih h)

theorem keys_setA {κ β : Type} [DecidableEq κ] (k : κ) (v : β) (l : List (κ × β)) :
    (setA k v l).map Prod.fst =
      if (getA k l).isSome then l.map Prod.fst else l.map Prod.fst ++ [k] := by
  induction l with
  | nil => simp [setA, getA]
  | cons p t ih =>
    by_cases hp : p.1 = k
    · simp [setA, getA, hp]
    · simp only [setA, getA, if_neg hp, List.map_cons, ih]
      by_cases hs : (getA k t).isSome
      · simp [hs]
      · simp [hs]

theorem nodup_keys_setA {κ β : Type} [DecidableEq κ] (k : κ) (v : β) {l : List (κ × β)}
    (h : (l.map Prod.fst).Nodup) : ((setA k v l).map Prod.fst).Nodup := by
  rw [keys_setA]
  cases hg : getA k l with
  | some w => simpa [hg] using h
  | none =>
    have hk : k ∉ l.map Prod.fst := (getA_eq_none_iff k l).mp hg
    simp only [hg, Option.isSome_none, Bool.false_eq_true, if_false]
    rw [List.nodup_append]
    refine ⟨h, List.nodup_singleton k, ?_⟩
    intro a ha hb
    rw [List.mem_singleton] at hb
    exact hk (hb ▸ ha)

theorem mem_setA_of_mem_ne {κ β : Type} [DecidableEq κ] {l : List (κ × β)} {p : κ × β}
    (hp : p ∈ l) (k : κ) (v : β) (h : p.1 ≠ k) : p ∈ setA k v l := by
  induction l with
  | nil => simp at hp
  | cons q t ih =>
    by_cases hq : q.1 = k
    · simp only [setA, if_pos hq]
      rcases List.mem_cons.mp hp with hp | hp
      · exact absurd (hp ▸ hq) h
      · exact List.mem_cons_of_mem _ hp
    · simp only [setA, if_neg hq]
      rcases List.mem_cons.mp hp with hp | hp
      · exact hp ▸ List.mem_cons_self _ _
      · exact List.mem_cons_of_mem _ (ih hp)

theorem getD_map_range (f : Nat → Node) {n i : Nat} (d : Node) (h : i < n) :
    (((List.range n).map f).getD i d) = f i := by
  rw [List.getD_eq_getElem?_getD, List.getElem?_map, List.getElem?_range h]
  rfl

theorem map_getD_range {α : Type} (d : α) :
    ∀ l : List α, (List.range l.length).map (fun i => l.getD i d) = l := by
  intro l
  induction l with
  | nil => rfl
  | cons a t ih =>
    rw [List.length_cons, List.range_succ_eq_map, List.map_cons, List.map_map]
    have hcomp : (List.range t.length).map ((fun i => (a :: t).getD i d) ∘ Nat.succ) =
        (List.range t.length).map (fun i => t.getD i d) := rfl
    rw [hcomp, ih]
    rfl

theorem mdAppend_shape (fh : String) (r : Nat × ChunkId) {md : Md}
    (h : md = [] ∨ md = [(fh, mdGetD fh md)]) :
    mdAppend fh r md = [(fh, mdGetD fh md ++ [r])] := by
  rcases h with h | h
  · subst h
    simp [mdAppend, mdGetD, getA]
  · rw [h]
    simp only [mdAppend, if_pos rfl]
    rw [h]
    simp [mdGetD, getA]

theorem coreInv_mono (fh : String) (chunks : List Bytes) {b1 b2 : Nat} {nodes : List Node}
    {md : Md} (h : b1 ≤ b2) (hinv : CoreInv fh chunks b1 nodes md) :
    CoreInv fh chunks b2 nodes md := by
  refine ⟨hinv.len5, hinv.ids, hinv.caps, hinv.act, ?_, hinv.mdshape, ?_⟩
  · intro i hi p hp
    rcases hinv.keys i hi p hp with ⟨j, hj, hpj⟩
    exact ⟨j, Nat.lt_of_lt_of_le hj h, hpj⟩
  · intro r hr
    rcases hinv.recs r hr with ⟨h5, j, hj, hrj, hg⟩
    exact ⟨h5, j, Nat.lt_of_lt_of_le hj h, hrj, hg⟩

/-- One successful store during the placement of chunk `k` preserves the core
invariant: the stored node gains exactly the entry for chunk `k` with its
correct bytes, and the appended replica record is valid. -/
theorem coreInv_place_step (fh : String) (chunks : List Bytes) (k : Nat) {nodes : List Node}
    {md : Md} (i : Nat) (hi : i < 5)
    (hinv : CoreInv fh chunks (k + 1) nodes md)
    (hs : ((nodes.getD i dummyNode).store_chunk (fh, k) (chunks.getD k [])).1 = true) :
    CoreInv fh chunks (k + 1)
      (nodes.set i ((nodes.getD i dummyNode).store_chunk (fh, k) (chunks.getD k [])).2)
      (mdAppend fh
        (((nodes.getD i dummyNode).store_chunk (fh, k) (chunks.getD k [])).2.node_id, (fh, k))
        md) := by
  have hlen : nodes.length = 5 := hinv.len5
  have hstor := store_chunk_storage_success hs
  have hnid : ((nodes.getD i dummyNode).store_chunk (fh, k) (chunks.getD k [])).2.node_id = i := by
    rw [store_chunk_node_id]
    exact hinv.ids i hi
  have hmd := mdAppend_shape fh
    (((nodes.getD i dummyNode).store_chunk (fh, k) (chunks.getD k [])).2.node_id, (fh, k))
    hinv.mdshape
  have hmdget : mdGetD fh (mdAppend fh
      (((nodes.getD i dummyNode).store_chunk (fh, k) (chunks.getD k [])).2.node_id, (fh, k)) md) =
      mdGetD fh md ++
        [(((nodes.getD i dummyNode).store_chunk (fh, k) (chunks.getD k [])).2.node_id, (fh, k))] :=
    mdGetD_mdAppend_self _ _ _
  refine ⟨by simp [hlen], ?_, ?_, ?_, ?_, ?_, ?_⟩
  · intro j hj
    rw [getD_set]
    by_cases hji : i = j ∧ i < nodes.length
    · rw [if_pos hji, store_chunk_node_id]
      rw [← hji.1]
      exact hinv.ids i hi
    · rw [if_neg hji]
      exact hinv.ids j hj
  · intro j hj
    rw [getD_set]
    by_cases hji : i = j ∧ i < nodes.length
    · rw [if_pos hji, store_chunk_capacity]
      exact hinv.caps i hi
    · rw [if_neg hji]
      exact hinv.caps j hj
  · intro j hj
    rw [getD_set]
    by_cases hji : i = j ∧ i < nodes.length
    · rw [if_pos hji, store_chunk_active]
      exact hinv.act i hi
    · rw [if_neg hji]
      exact hinv.act j hj
  · intro j hj p hp
    rw [getD_set] at hp
    by_cases hji : i = j ∧ i < nodes.length
    · rw [if_pos hji] at hp
      rw [hstor] at hp
      rcases mem_setA hp with hp | hp
      · exact hinv.keys i hi p hp
      · exact ⟨k, Nat.lt_succ_self k, hp⟩
    · rw [if_neg hji] at hp
      exact hinv.keys j hj p hp
  · rw [hmd]
    right
    simp [mdGetD, getA]
  · intro r hr
    rw [hmdget] at hr
    rcases List.mem_append.mp hr with hr | hr
    · rcases hinv.recs r hr with ⟨h5, j, hj, hrj, hg⟩
      refine ⟨h5, j, hj, hrj, ?_⟩
      rw [getD_set]
      by_cases hji : i = r.1 ∧ i < nodes.length
      · rw [if_pos hji, hstor]
        by_cases hjk : j = k
        · subst hjk
          rw [getA_setA_self]
        · rw [getA_setA_ne _ _ (fun hc => hjk (congrArg Prod.snd hc))]
          rw [hji.1]
          exact hg
      · rw [if_neg hji]
        exact hg
    · rw [List.mem_singleton] at hr
      subst hr
      refine ⟨by rw [hnid]; exact hi, k, Nat.lt_succ_self k, rfl, ?_⟩
      rw [hnid, getD_set, if_pos ⟨rfl, by omega⟩, hstor, getA_setA_self]

/-- Walking the placement ranking for chunk `k` preserves the core invariant,
adds at most `2 - placed` chunks of load, only appends replica records, and
appends at least one replica record for chunk `k` provided some node in the
remaining ranking accepts the store. -/
theorem placeGo_core (fh : String) (chunks : List Bytes) (k : Nat) :
    ∀ (order : List Nat) (nodes : List Node) (md : Md) (placed : Nat),
      order.Nodup → (∀ j ∈ order, j < 5) → placed < 2 →
      CoreInv fh chunks (k + 1) nodes md →
      CoreInv fh chunks (k + 1)
          (placeGo 2 fh (fh, k) (chunks.getD k []) order nodes md placed).1
          (placeGo 2 fh (fh, k) (chunks.getD k []) order nodes md placed).2 ∧
        sumLoads (placeGo 2 fh (fh, k) (chunks.getD k []) order nodes md placed).1 ≤
          sumLoads nodes + (2 - placed) ∧
        (∀ r ∈ mdGetD fh md,
          r ∈ mdGetD fh (placeGo 2 fh (fh, k) (chunks.getD k []) order nodes md placed).2) ∧
        ((∃ i ∈ order, accepts (nodes.getD i dummyNode) = true) →
          ∃ nid, (nid, (fh, k)) ∈
            mdGetD fh (placeGo 2 fh (fh, k) (chunks.getD k []) order nodes md placed).2) := by
  intro order
  induction order with
  | nil =>
    intro nodes md placed _ _ _ hinv
    refine ⟨hinv, by simp only [placeGo]; omega, by simp only [placeGo]; exact fun r hr => hr, ?_⟩
    rintro ⟨i, hi, _⟩
    simp at hi
  | cons i rest ih =>
    intro nodes md placed hnd hbd hpl hinv
    have hi5 : i < 5 := hbd i (List.mem_cons_self _ _)
    have hnd_rest : rest.Nodup := (List.nodup_cons.mp hnd).2
    have hbd_rest : ∀ j ∈ rest, j < 5 := fun j hj => hbd j (List.mem_cons_of_mem _ hj)
    simp only [placeGo]
    by_cases hs : ((nodes.getD i dummyNode).store_chunk (fh, k) (chunks.getD k [])).1 = true
    · simp only [if_pos hs]
      have hstep := coreInv_place_step fh chunks k i hi5 hinv hs
      have hmdget := mdGetD_mdAppend_self fh
        (((nodes.getD i dummyNode).store_chunk (fh, k) (chunks.getD k [])).2.node_id, (fh, k)) md
      have hload := sumLoads_set_store nodes i (fh, k) (chunks.getD k [])
      by_cases hb : placed + 1 = 2
      · simp only [if_pos hb]
        refine ⟨hstep, by omega, ?_, ?_⟩
        · intro r hr
          rw [hmdget]
          exact List.mem_append_left _ hr
        · intro _
          refine ⟨((nodes.getD i dummyNode).store_chunk (fh, k) (chunks.getD k [])).2.node_id, ?_⟩
          rw [hmdget]
          exact List.mem_append_right _ (List.mem_singleton.mpr rfl)
      · simp only [if_neg hb]
        have hpl2 : placed + 1 < 2 := by omega
        rcases ih _ _ (placed + 1) hnd_rest hbd_rest hpl2 hstep with ⟨hinv2, hload2, hmono2, _⟩
        refine ⟨hinv2, by omega, ?_, ?_⟩
        · intro r hr
          apply hmono2
          rw [hmdget]
          exact List.mem_append_left _ hr
        · intro _
          refine ⟨((nodes.getD i dummyNode).store_chunk (fh, k) (chunks.getD k [])).2.node_id,
            hmono2 _ ?_⟩
          rw [hmdget]
          exact List.mem_append_right _ (List.mem_singleton.mpr rfl)
    · simp only [Bool.not_eq_true] at hs
      simp only [hs, Bool.false_eq_true, if_false]
      have hacc : accepts (nodes.getD i dummyNode) = false := by
        rw [← store_chunk_fst (nodes.getD i dummyNode) (fh, k) (chunks.getD k [])]
        exact hs
      rcases ih _ _ placed hnd_rest hbd_rest hpl hinv with ⟨hinv2, hload2, hmono2, hex2⟩
      refine ⟨hinv2, hload2, hmono2, ?_⟩
      rintro ⟨i2, hi2, hacc2⟩
      rcases List.mem_cons.mp hi2 with hi2 | hi2
      · subst hi2
        rw [hacc] at hacc2
        exact absurd hacc2 (Bool.false_ne_true)
      · exact hex2 ⟨i2, hi2, hacc2⟩

theorem coreInv_init (fh : String) (chunks : List Bytes) :
    CoreInv fh chunks 0 (DFS.init 5 2).nodes [] := by
  refine ⟨by decide, ?_, ?_, ?_, ?_, Or.inl rfl, ?_⟩
  · intro i hi
    interval_cases i <;> rfl
  · intro i hi
    interval_cases i <;> rfl
  · intro i hi
    interval_cases i <;> rfl
  · intro i hi p hp
    have hempty : ((DFS.init 5 2).nodes.getD i dummyNode).storage = [] := by
      interval_cases i <;> rfl
    rw [hempty] at hp
    simp at hp
  · intro r hr
    simp [mdGetD, getA] at hr

/-- The chunk loop of `upload_file` on the fresh default engine: starting from
a state satisfying the invariant for the first `k` chunks, with at most 250
chunks in total every remaining chunk is placed on at least one node, and the
final state satisfies the invariant together with full coverage of all
sequence numbers. -/
theorem uploadChunks_inv (fh : String) (chunks : List Bytes) (hlen : chunks.length ≤ 250) :
    ∀ (cs : List Bytes) (k : Nat) (nodes : List Node) (md : Md),
      cs = chunks.drop k → k + cs.length = chunks.length →
      CoreInv fh chunks k nodes md → sumLoads nodes ≤ 2 * k →
      (∀ j, j < k → ∃ nid, (nid, (fh, j)) ∈ mdGetD fh md) →
      CoreInv fh chunks chunks.length (uploadChunks 2 fh k cs (nodes, md)).1
          (uploadChunks 2 fh k cs (nodes, md)).2 ∧
        (∀ j, j < chunks.length → ∃ nid, (nid, (fh, j)) ∈
          mdGetD fh (uploadChunks 2 fh k cs (nodes, md)).2) := by
  intro cs
  induction cs with
  | nil =>
    intro k nodes md _ hkl hinv _ hcov
    have hk : k = chunks.length := by simpa using hkl
    subst hk
    exact ⟨hinv, hcov⟩
  | cons c rest ih =>
    intro k nodes md hdrop hkl hinv hload hcov
    have hklt : k < chunks.length := by
      simp only [List.length_cons] at hkl
      omega
    have hc : chunks.getD k [] = c := by
      have h0 : chunks[k]? = some c := by
        have := List.getElem?_drop chunks k 0
        rw [← hdrop] at this
        simpa using this.symm
      rw [List.getD_eq_getElem?_getD, h0]
      rfl
    have hrest : rest = chunks.drop (k + 1) := by
      have := List.drop_drop 1 k chunks
      rw [← hdrop] at this
      simpa using this
    have hrkl : (k + 1) + rest.length = chunks.length := by
      simp only [List.length_cons] at hkl
      omega
    simp only [uploadChunks]
    rw [show placeChunk 2 fh k c nodes md =
      placeGo 2 fh (fh, k) (chunks.getD k []) (sortedIdx nodes) nodes md 0 by
        rw [hc]; rfl]
    have hbd : ∀ j ∈ sortedIdx nodes, j < 5 := by
      intro j hj
      have := (sortedIdx_perm nodes).mem_iff.mp hj
      rw [List.mem_range, hinv.len5] at this
      exact this
    rcases placeGo_core fh chunks k (sortedIdx nodes) nodes md 0 (sortedIdx_nodup nodes) hbd
      (by omega) (coreInv_mono fh chunks (Nat.le_succ k) hinv) with ⟨hinv2, hload2, hmono2, hex2⟩
    have hsome : ∃ i ∈ sortedIdx nodes, accepts (nodes.getD i dummyNode) = true := by
      have hlow : ∃ i, i < 5 ∧ (nodes.getD i dummyNode).storage.length < 100 := by
        by_contra hno
        push_neg at hno
        have h500 : 100 * nodes.length ≤ sumLoads nodes := by
          apply sumLoads_lower
          intro i hi
          exact hno i (by rw [← hinv.len5]; exact hi)
        rw [hinv.len5] at h500
        omega
      rcases hlow with ⟨i, hi5, hilow⟩
      refine ⟨i, ?_, ?_⟩
      · exact (sortedIdx_perm nodes).mem_iff.mpr (by rw [List.mem_range, hinv.len5]; exact hi5)
      · rw [accepts, decide_eq_true_eq]
        exact ⟨by rw [hinv.caps i hi5]; exact hilow, hinv.act i hi5⟩
    rcases hex2 hsome with ⟨nid, hnid⟩
    have hcov2 : ∀ j, j < k + 1 → ∃ nid2, (nid2, (fh, j)) ∈
        mdGetD fh (placeGo 2 fh (fh, k) (chunks.getD k []) (sortedIdx nodes) nodes md 0).2 := by
      intro j hj
      by_cases hjk : j < k
      · rcases hcov j hjk with ⟨nid2, hnid2⟩
        exact ⟨nid2, hmono2 _ hnid2⟩
      · have : j = k := by omega
        subst this
        exact ⟨nid, hnid⟩
    exact ih (k + 1) _ _ hrest hrkl hinv2 (by omega) hcov2

/-- The fetch loop of `download_file`, run over records that all resolve to
the correct chunk bytes, builds a dict whose entries are exactly the canonical
chunk entries, with no duplicate keys, containing an entry for every chunk id
mentioned by some record. -/
theorem fetchChunks_build (nodes : List Node) (fh : String) (chunks : List Bytes) :
    ∀ (recs : Records) (acc : List (ChunkId × Bytes)),
      (∀ r ∈ recs, ∃ j, j < chunks.length ∧ r.2 = (fh, j) ∧
        (nodes.getD r.1 dummyNode).retrieve_chunk r.2 = some (chunks.getD j []) ∧
        (chunks.getD j []).isEmpty = false) →
      (∀ p ∈ acc, ∃ j, j < chunks.length ∧ p = ((fh, j), chunks.getD j [])) →
      (acc.map Prod.fst).Nodup →
      (∀ p ∈ fetchChunks nodes recs acc,
          ∃ j, j < chunks.length ∧ p = ((fh, j), chunks.getD j [])) ∧
        ((fetchChunks nodes recs acc).map Prod.fst).Nodup ∧
        (∀ p ∈ acc, p ∈ fetchChunks nodes recs acc) ∧
        (∀ j, j < chunks.length → (∃ r ∈ recs, r.2 = (fh, j)) →
          ((fh, j), chunks.getD j []) ∈ fetchChunks nodes recs acc) := by
  intro recs
  induction recs with
  | nil =>
    intro acc _ hacc hnd
    refine ⟨hacc, hnd, fun p hp => hp, ?_⟩
    rintro j _ ⟨r, hr, _⟩
    simp at hr
  | cons r rest ih =>
    intro acc hgood hacc hnd
    rcases hgood r (List.mem_cons_self _ _) with ⟨j, hj, hr2, hretr, hne⟩
    have hgood_rest : ∀ r2 ∈ rest, ∃ j2, j2 < chunks.length ∧ r2.2 = (fh, j2) ∧
        (nodes.getD r2.1 dummyNode).retrieve_chunk r2.2 = some (chunks.getD j2 []) ∧
        (chunks.getD j2 []).isEmpty = false :=
      fun r2 hr2m => hgood r2 (List.mem_cons_of_mem _ hr2m)
    have hstep : fetchChunks nodes (r :: rest) acc =
        fetchChunks nodes rest (setA (fh, j) (chunks.getD j []) acc) := by
      simp only [fetchChunks, hretr, hne, Bool.false_eq_true, if_false]
      rw [hr2]
    have hacc2 : ∀ p ∈ setA (fh, j) (chunks.getD j []) acc,
        ∃ j2, j2 < chunks.length ∧ p = ((fh, j2), chunks.getD j2 []) := by
      intro p hp
      rcases mem_setA hp with hp | hp
      · exact hacc p hp
      · exact ⟨j, hj, hp⟩
    have hnd2 : ((setA (fh, j) (chunks.getD j []) acc).map Prod.fst).Nodup :=
      nodup_keys_setA _ _ hnd
    rcases ih _ hgood_rest hacc2 hnd2 with ⟨ha, hb, hc, hd⟩
    rw [hstep]
    refine ⟨ha, hb, ?_, ?_⟩
    · intro p hp
      apply hc
      rcases hacc p hp with ⟨j2, hj2, hpj2⟩
      by_cases hkey : p.1 = (fh, j)
      · have : j2 = j := by
          have hp1 : p.1 = (fh, j2) := by rw [hpj2]
          rw [hkey] at hp1
          exact (congrArg Prod.snd hp1).symm
        subst this
        rw [hpj2]
        exact getA_some_mem (getA_setA_self _ _ _)
      · exact mem_setA_of_mem_ne hp _ _ hkey
    · intro j2 hj2 hex
      rcases hex with ⟨r2, hr2m, hr2j⟩
      rcases List.mem_cons.mp hr2m with hr2m | hr2m
      · have : j2 = j := by
          rw [hr2m] at hr2j
          rw [hr2] at hr2j
          exact (congrArg Prod.snd hr2j.symm)
        subst this
        apply hc
        exact getA_some_mem (getA_setA_self _ _ _)
      · exact hd j2 hj2 ⟨r2, hr2m, hr2j⟩

theorem seqLe_trans : ∀ a b c : ChunkId × Bytes,
    seqLe a b = true → seqLe b c = true → seqLe a c = true := by
  intro a b c hab hbc
  simp only [seqLe, decide_eq_true_eq] at *
  omega

theorem seqLe_total : ∀ a b : ChunkId × Bytes, seqLe a b = false → seqLe b a = true := by
  intro a b h
  simp only [seqLe, decide_eq_true_eq, decide_eq_false_iff_not] at *
  omega

theorem download_file_eq (st : DFS) (fh : String) (recs : Records)
    (h : getA fh st.metadata = some recs) :
    st.download_file fh =
      (if (fetchChunks st.nodes recs []).isEmpty then none
        else some (((isort seqLe (fetchChunks st.nodes recs [])).map Prod.snd).flatten)) := by
  unfold DFS.download_file
  rw [h]

/-- Reassembly: in a state satisfying the invariant with full coverage, the
fetch loop recovers every chunk, the sort by sequence number restores the
split order, and the concatenation equals the concatenation of the chunks. -/
theorem roundtrip_core (fh : String) (chunks : List Bytes) (nodesF : List Node) (mdF : Md)
    (hinvF : CoreInv fh chunks chunks.length nodesF mdF)
    (hcovF : ∀ j, j < chunks.length → ∃ nid, (nid, (fh, j)) ∈ mdGetD fh mdF)
    (hN : 0 < chunks.length)
    (hnonempty : ∀ c ∈ chunks, c ≠ []) :
    getA fh mdF = some (mdGetD fh mdF) ∧
    (fetchChunks nodesF (mdGetD fh mdF) []).isEmpty = false ∧
    ((isort seqLe (fetchChunks nodesF (mdGetD fh mdF) [])).map Prod.snd).flatten =
      chunks.flatten := by
  have hshape : mdF = [(fh, mdGetD fh mdF)] := by
    rcases hinvF.mdshape with h | h
    · rcases hcovF 0 hN with ⟨nid0, h0⟩
      rw [h] at h0
      simp [mdGetD, getA] at h0
    · exact h
  have hgetA : getA fh mdF = some (mdGetD fh mdF) := by
    conv_lhs => rw [hshape]
    simp [getA]
  have hgood : ∀ r ∈ mdGetD fh mdF, ∃ j, j < chunks.length ∧ r.2 = (fh, j) ∧
      (nodesF.getD r.1 dummyNode).retrieve_chunk r.2 = some (chunks.getD j []) ∧
      (chunks.getD j []).isEmpty = false := by
    intro r hr
    rcases hinvF.recs r hr with ⟨h5, j, hj, hrj, hg⟩
    refine ⟨j, hj, hrj, ?_, ?_⟩
    · have hact := hinvF.act r.1 h5
      simp only [Node.retrieve_chunk, hact, if_pos]
      rw [hrj]
      exact hg
    · have hne : chunks.getD j [] ≠ [] := hnonempty _ (getD_mem_of_lt chunks j [] hj)
      cases hcj : chunks.getD j [] with
      | nil => exact absurd hcj hne
      | cons x xs => rfl
  rcases fetchChunks_build nodesF fh chunks (mdGetD fh mdF) [] hgood (by simp) (by simp)
    with ⟨hDa, hDb, _, hDd⟩
  rcases hcovF 0 hN with ⟨nid0, h0⟩
  have hentry0 : ((fh, 0), chunks.getD 0 []) ∈ fetchChunks nodesF (mdGetD fh mdF) [] :=
    hDd 0 hN ⟨(nid0, (fh, 0)), h0, rfl⟩
  have hDne : (fetchChunks nodesF (mdGetD fh mdF) []).isEmpty = false := by
    cases hD : fetchChunks nodesF (mdGetD fh mdF) [] with
    | nil => rw [hD] at hentry0; simp at hentry0
    | cons x xs => rfl
  refine ⟨hgetA, hDne, ?_⟩
  have hmem_iff : ∀ p, p ∈ fetchChunks nodesF (mdGetD fh mdF) [] ↔
      p ∈ (List.range chunks.length).map (fun j => ((fh, j), chunks.getD j [])) := by
    intro p
    constructor
    · intro hp
      rcases hDa p hp with ⟨j, hj, rfl⟩
      exact List.mem_map.mpr ⟨j, List.mem_range.mpr hj, rfl⟩
    · intro hp
      rcases List.mem_map.mp hp with ⟨j, hjr, rfl⟩
      have hj := List.mem_range.mp hjr
      rcases hcovF j hj with ⟨nid, hnid⟩
      exact hDd j hj ⟨(nid, (fh, j)), hnid, rfl⟩
  have hDnd : (fetchChunks nodesF (mdGetD fh mdF) []).Nodup := List.Nodup.of_map _ hDb
  have hLnd : ((List.range chunks.length).map (fun j => ((fh, j), chunks.getD j []))).Nodup := by
    refine List.Nodup.map ?_ (List.nodup_range _)
    intro j1 j2 hj
    exact congrArg (fun p => p.1.2) hj
  have hperm : (fetchChunks nodesF (mdGetD fh mdF) []).Perm
      ((List.range chunks.length).map (fun j => ((fh, j), chunks.getD j []))) :=
    (List.perm_ext_iff_of_nodup hDnd hLnd).mpr hmem_iff
  have hsortperm : (isort seqLe (fetchChunks nodesF (mdGetD fh mdF) [])).Perm
      ((List.range chunks.length).map (fun j => ((fh, j), chunks.getD j []))) :=
    (perm_isort seqLe _).trans hperm
  have hle : (isort seqLe (fetchChunks nodesF (mdGetD fh mdF) [])).Pairwise
      (fun a b => seqLe a b = true) :=
    pairwise_isort seqLe_trans seqLe_total _
  have hseqnd : ((isort seqLe (fetchChunks nodesF (mdGetD fh mdF) [])).map
      (fun p => p.1.2)).Nodup := by
    have hp2 := hsortperm.map (fun p : ChunkId × Bytes => p.1.2)
    have hLseq : ((List.range chunks.length).map
        (fun j => ((fh, j), chunks.getD j []))).map (fun p : ChunkId × Bytes => p.1.2) =
        List.range chunks.length := by
      rw [List.map_map]
      exact List.map_id _
    rw [hLseq] at hp2
    exact hp2.nodup_iff.mpr (List.nodup_range _)
  have hlt : (isort seqLe (fetchChunks nodesF (mdGetD fh mdF) [])).Pairwise
      (fun a b => a.1.2 < b.1.2) := by
    have hseqnd2 : ((isort seqLe (fetchChunks nodesF (mdGetD fh mdF) [])).map
        (fun p => p.1.2)).Pairwise (fun a b => a ≠ b) := hseqnd
    have hne := List.pairwise_map.mp hseqnd2
    refine (hle.and hne).imp ?_
    intro a b h
    have h1 : a.1.2 ≤ b.1.2 := by
      have := h.1
      simpa [seqLe, decide_eq_true_eq] using this
    exact Nat.lt_of_le_of_ne h1 h.2
  have hLlt : ((List.range chunks.length).map
      (fun j => ((fh, j), chunks.getD j []))).Pairwise (fun a b => a.1.2 < b.1.2) := by
    refine (List.pairwise_lt_range chunks.length).map _ ?_
    intro a b h
    exact h
  have heqL : isort seqLe (fetchChunks nodesF (mdGetD fh mdF) []) =
      (List.range chunks.length).map (fun j => ((fh, j), chunks.getD j [])) := by
    haveI : IsAntisymm (ChunkId × Bytes) (fun a b => a.1.2 < b.1.2) :=
      ⟨fun a b h1 h2 => absurd h2 (Nat.lt_asymm h1)⟩
    exact List.eq_of_perm_of_sorted hsortperm hlt hLlt
  rw [heqL, List.map_map]
  have hmapsnd : (List.range chunks.length).map
      ((Prod.snd : ChunkId × Bytes → Bytes) ∘ (fun j => ((fh, j), chunks.getD j []))) =
      (List.range chunks.length).map (fun j => chunks.getD j []) := rfl
  rw [hmapsnd, map_getD_range [] chunks]

/-- C1 counterexample as frozen: uploading an empty byte sequence and
downloading the returned id yields `None`, not the empty byte sequence. -/
theorem upload_empty_download_counterexample :
    ((DFS.upload_file id (DFS.init 5 2) "f" []).2).download_file
        (DFS.upload_file id (DFS.init 5 2) "f" []).1 = none ∧
      ((DFS.upload_file id (DFS.init 5 2) "f" []).2).download_file
        (DFS.upload_file id (DFS.init 5 2) "f" []).1 ≠ some [] := by
  constructor
  · decide
  · decide

/-- Amended C1: on the fresh default engine (five empty active nodes of
capacity 100, replication factor 2, chunk size 1024), uploading any non-empty
content of at most 250 chunks (256000 bytes) and then downloading the
returned id, with no failures and no other operations in between, returns
exactly the original bytes.  Non-emptiness is forced by the counterexample
(an empty upload stores nothing and downloads as `None`); the size bound
keeps the total replica count below the point where node capacities are
exhausted and chunks would be dropped. -/
theorem upload_download_roundtrip (H : String → String) (name : String) (content : Bytes)
    (h1 : content ≠ []) (h2 : content.length ≤ 256000) :
    ((DFS.upload_file H (DFS.init 5 2) name content).2).download_file
        (DFS.upload_file H (DFS.init 5 2) name content).1 = some content := by
  have hlen : (splitChunks 1024 content).length ≤ 250 :=
    @splitChunks_length_le 1023 250 content (by omega)
  have hN : 0 < (splitChunks 1024 content).length := by
    cases hcont : content with
    | nil => exact absurd hcont h1
    | cons b t =>
      rw [show splitChunks 1024 (b :: t) = (b :: t).take 1024 ::
          splitChunks 1024 ((b :: t).drop 1024) from splitChunks_cons 1023 b t]
      simp
  rcases uploadChunks_inv (H name) (splitChunks 1024 content) hlen (splitChunks 1024 content)
      0 (DFS.init 5 2).nodes [] (List.drop_zero _).symm (by omega)
      (coreInv_init (H name) (splitChunks 1024 content)) (by decide)
      (fun j hj => absurd hj (Nat.not_lt_zero j)) with ⟨hinvF, hcovF⟩
  rcases roundtrip_core (H name) (splitChunks 1024 content)
      (uploadChunks 2 (H name) 0 (splitChunks 1024 content) ((DFS.init 5 2).nodes, [])).1
      (uploadChunks 2 (H name) 0 (splitChunks 1024 content) ((DFS.init 5 2).nodes, [])).2
      hinvF hcovF hN (fun c hc => @splitChunks_nonempty 1023 content c hc)
    with ⟨hgetA, hDne, hflat⟩
  have hdl := download_file_eq (DFS.upload_file H (DFS.init 5 2) name content).2 (H name)
    (mdGetD (H name)
      (uploadChunks 2 (H name) 0 (splitChunks 1024 content) ((DFS.init 5 2).nodes, [])).2)
    hgetA
  have hfst : (DFS.upload_file H (DFS.init 5 2) name content).1 = H name := rfl
  rw [hfst, hdl]
  have hnodes : (DFS.upload_file H (DFS.init 5 2) name content).2.nodes =
      (uploadChunks 2 (H name) 0 (splitChunks 1024 content) ((DFS.init 5 2).nodes, [])).1 := rfl
  rw [hnodes, if_neg (by rw [hDne]; exact Bool.false_ne_true), hflat]
  rw [@flatten_splitChunks 1023 content]

/-- Witness for the amended C1 at a concrete three-byte file. -/
theorem upload_download_roundtrip_witness :
    ([1, 2, 3] : Bytes) ≠ [] ∧ ([1, 2, 3] : Bytes).length ≤ 256000 ∧
      ((DFS.upload_file id (DFS.init 5 2) "f" [1, 2, 3]).2).download_file
        (DFS.upload_file id (DFS.init 5 2) "f" [1, 2, 3]).1 = some [1, 2, 3] :=
  ⟨by decide, by decide, upload_download_roundtrip id "f" [1, 2, 3] (by decide) (by decide)⟩

end DFSim
